import Mathlib

/-!
# Verification of the rust-voip-core audio/video pipeline

A shallow embedding, in Lean 4, of the pure computational kernels of the
`rust-voip-core` repository, together with proofs of the specification's
claims about them:

* `video_service.rs`: the `align_to_16` alignment helper;
* `nvfbc_lowpower.rs`: the fixed-point index arithmetic of
  `bgra_to_i420_scaled`;
* `nvfbc_capture.rs`: the CPU BGRA→I420 colour converter `bgra_to_i420`;
* `audio_service.rs` / `main.rs`: the per-frame DSP step (PTT gate, echo
  reference, output resampling), the session ring buffers, the global
  transmit state, and the device enumerator
  `get_professional_device_list`.

Machine integers are modelled as `Nat`/`Int` with explicit wrap-around
(`% 2 ^ 32`) where the Rust code can wrap; Rust's arithmetic right shift
on `i32` is floor division by a power of two (`Int.fdiv`), and Rust's
`i32` division truncates towards zero (`Int.tdiv`).  Slice reads and
writes are modelled in an `Option` monad: an out-of-bounds access (a
panic in Rust) is `none`.
-/

/-! ## `video_service.rs`: `align_to_16` -/

/-- `VAAPI_ALIGNMENT` from `video_service.rs`. -/
def VAAPI_ALIGNMENT : Nat := 16

/-- `align_to_16` from `video_service.rs`:
`(value + (VAAPI_ALIGNMENT - 1)) & !(VAAPI_ALIGNMENT - 1)` on `u32`.
The `u32` addition wraps modulo `2 ^ 32`, and `!(VAAPI_ALIGNMENT - 1)`
is the 32-bit complement of 15, i.e. `2 ^ 32 - 16 = 0xFFFFFFF0`. -/
def align_to_16 (value : Nat) : Nat :=
  ((value + (VAAPI_ALIGNMENT - 1)) % 2 ^ 32) &&& (2 ^ 32 - VAAPI_ALIGNMENT)

/-! ## `nvfbc_lowpower.rs`: fixed-point downscale index arithmetic

`bgra_to_i420_scaled` computes, for source size `(src_w, src_h)` and
destination size `(dst_w, dst_h)`:

* `x_ratio = (src_w << 16) / dst_w` (and likewise `y_ratio`),
* `src_x = (dst_x * x_ratio) >> 16` (and likewise `src_y`),
* `bgra_idx = (src_y * src_w + src_x) * BYTES_PER_PIXEL`,

all in `usize` arithmetic (no overflow for screen-sized inputs). -/

/-- `x_ratio`/`y_ratio` from `bgra_to_i420_scaled`:
`(src << 16) / dst` (named without the source's `ratio` suffix). -/
def scaleFactor (src dst : Nat) : Nat := (src <<< 16) / dst

/-- `src_x = (dst_x * x_ratio) >> 16` (and likewise for `y`)
from `bgra_to_i420_scaled`. -/
def scaledSrcCoord (factor dst : Nat) : Nat := (dst * factor) >>> 16

/-- `bgra_idx = (src_y * src_w + src_x) * BYTES_PER_PIXEL`
from `bgra_to_i420_scaled`, with `BYTES_PER_PIXEL = 4`. -/
def scaledBgraIdx (srcW srcY srcX : Nat) : Nat := (srcY * srcW + srcX) * 4

/-! ## `nvfbc_capture.rs`: CPU BGRA→I420 conversion

`bgra_to_i420` walks the image in 2×2 blocks.  For each in-bounds pixel
it writes a BT.601 luma sample; for each block it writes one U and one V
sample computed from the truncating average of the four pixels.  All
`i32` intermediates fit well inside 32 bits, so they are modelled as
unbounded `Int`. -/

/-- Rust `i32::clamp(x, 0, 255)`. -/
def clampByte (x : Int) : Int := min (max x 0) 255

/-- Arithmetic right shift by `YUV_SHIFT = 8` bits on `i32` (Rust `>>`
on a signed integer): floor division by `2 ^ 8 = 256`. -/
def asr8 (x : Int) : Int := Int.fdiv x 256

/-- Per-pixel luma of `bgra_to_i420` (BT.601 constants
`YUV_Y_R_COEF = 66`, `YUV_Y_G_COEF = 129`, `YUV_Y_B_COEF = 25`,
`YUV_ROUNDING = 128`, `YUV_Y_OFFSET = 16`):
`((66·R + 129·G + 25·B + 128) >> 8 + 16).clamp(0, 255)`. -/
def yValue (r g b : Int) : Int :=
  clampByte (asr8 (66 * r + 129 * g + 25 * b + 128) + 16)

/-- Chroma U of `bgra_to_i420` (`YUV_U_*_COEF = -38, -74, 112`,
offset `YUV_UV_OFFSET = 128`), clamp included. -/
def uValue (r g b : Int) : Int :=
  clampByte (asr8 (-38 * r + -74 * g + 112 * b + 128) + 128)

/-- Chroma V of `bgra_to_i420` (`YUV_V_*_COEF = 112, -94, -18`),
clamp included. -/
def vValue (r g b : Int) : Int :=
  clampByte (asr8 (112 * r + -94 * g + -18 * b + 128) + 128)

/-- The three byte planes of an `I420Buffer`. -/
structure I420Planes where
  y : List Nat
  u : List Nat
  v : List Nat

/-- A checked slice write: Rust `plane[i] = v` panics out of bounds,
modelled as `none`. -/
def setAt (l : List Nat) (i v : Nat) : Option (List Nat) :=
  if i < l.length then some (l.set i v) else none

/-- Rust `for i in 0..n` over a fallible loop body, indices ascending. -/
def foldN {σ : Type} (f : Nat → σ → Option σ) : Nat → σ → Option σ
  | 0, s => some s
  | n + 1, s => (foldN f n s) >>= f n

/-- One iteration of the `for dy in 0..2 { for dx in 0..2 { … } }` pixel
loop of `bgra_to_i420` (`nvfbc_capture.rs` lines 195–216): guard
`bgra_idx + BGRA_R >= bgra.len()` skips the pixel (`continue`);
otherwise read B, G, R, write the clamped luma sample into the Y plane
and accumulate the block's colour sums.  The state is the Y plane
together with the running `(red_sum, green_sum, blue_sum)`. -/
def pixelStep (bgra : List Nat) (width blockX blockY dx dy : Nat)
    (st : List Nat × Int × Int × Int) : Option (List Nat × Int × Int × Int) :=
  let pixelX := blockX * 2 + dx
  let pixelY := blockY * 2 + dy
  let bgraIdx := (pixelY * width + pixelX) * 4
  if bgra.length ≤ bgraIdx + 2 then some st
  else do
    let blue ← bgra[bgraIdx]?
    let green ← bgra[bgraIdx + 1]?
    let red ← bgra[bgraIdx + 2]?
    let yp ← setAt st.1 (pixelY * width + pixelX) (yValue red green blue).toNat
    some (yp, st.2.1 + red, st.2.2.1 + green, st.2.2.2 + blue)

/-- One iteration of the 2×2 block loop of `bgra_to_i420`: the four
pixel iterations in source order (`(dy, dx)` = (0,0), (0,1), (1,0),
(1,1)), averaging (`i32` `/` truncates towards zero: `Int.tdiv`), and
the U/V writes guarded by `uv_idx < u_plane.len()` (the V write itself
is an unchecked index). -/
def blockStep (bgra : List Nat) (width blockY blockX : Nat)
    (st : I420Planes) : Option I420Planes := do
  let s0 : List Nat × Int × Int × Int := (st.y, 0, 0, 0)
  let s1 ← pixelStep bgra width blockX blockY 0 0 s0
  let s2 ← pixelStep bgra width blockX blockY 1 0 s1
  let s3 ← pixelStep bgra width blockX blockY 0 1 s2
  let s4 ← pixelStep bgra width blockX blockY 1 1 s3
  let redAvg := Int.tdiv s4.2.1 4
  let greenAvg := Int.tdiv s4.2.2.1 4
  let blueAvg := Int.tdiv s4.2.2.2 4
  let uvIdx := blockY * (width / 2) + blockX
  if uvIdx < st.u.length then do
    let uPlane := st.u.set uvIdx (uValue redAvg greenAvg blueAvg).toNat
    let vPlane ← setAt st.v uvIdx (vValue redAvg greenAvg blueAvg).toNat
    some { y := s4.1, u := uPlane, v := vPlane }
  else
    some { y := s4.1, u := st.u, v := st.v }

/-- `bgra_to_i420` from `nvfbc_capture.rs`: iterate the 2×2 blocks in
row-major order (`block_y in 0..height/2`, `block_x in 0..width/2`)
over the given I420 planes.  `none` models an out-of-bounds panic. -/
def bgra_to_i420 (bgra : List Nat) (width height : Nat)
    (planes : I420Planes) : Option I420Planes :=
  foldN (fun blockY st =>
      foldN (fun blockX st' => blockStep bgra width blockY blockX st') (width / 2) st)
    (height / 2) planes

/-- A solid-colour BGRA buffer of `n` pixels, each `(B, G, R, A)`. -/
def solidBGRA (b g r a : Nat) : Nat → List Nat
  | 0 => []
  | n + 1 => b :: g :: r :: a :: solidBGRA b g r a n

/-! ## `audio_service.rs` / `main.rs`: the per-frame DSP step

The DSP worker thread of `AudioSession::create` processes 480-sample
frames.  The stateful external processors — the
`webrtc_audio_processing` `Processor` (`process_capture_frame`,
`process_render_frame`), the `nnnoiseless` denoiser (`process_frame`)
and the `rubato` output resampler (`res_out.process`) — are third-party
crates; their per-frame actions on a frame are abstracted as function
parameters.  Samples are `f32` in the source; the gate logic performs
no floating-point arithmetic (it only selects whole frames or
substitutes literal zeros), so samples are modelled exactly as `ℚ`. -/

/-- The observable per-frame outputs of one iteration of the
`while dsp_buf.len() >= 480` body in `AudioSession::create`. -/
structure DspFrameResult where
  /-- The gated `output_frame` (step 3, "PTT Gate"). -/
  outputFrame : List ℚ
  /-- The frame handed to `proc.process_render_frame` (step 4): the
  clone of `output_frame` taken before the call mutates it. -/
  renderFeed : List ℚ
  /-- The samples pushed one by one into the output ring (step 5):
  the first channel of `res_out.process(&[output_frame])`. -/
  pushedToRing : List ℚ

/-- One 480-sample frame through steps 1–5 of the DSP worker loop of
`AudioSession::create` (`audio_service.rs` lines 226–247; `main.rs` has
the identical loop): capture processing (`cap`), secondary neural
denoise (`den`), PTT gate on `is_tx`, echo-reference feed, and output
resampling (`resampleOut`) into the ring. -/
def dspFrameStep (cap den resampleOut : List ℚ → List ℚ)
    (frame : List ℚ) (is_tx : Bool) : DspFrameResult :=
  let frame1 := cap frame
  let clean := den frame1
  let output_frame := if is_tx then clean else List.replicate 480 0
  let render_copy := output_frame
  { outputFrame := output_frame
    renderFeed := render_copy
    pushedToRing := resampleOut output_frame }

/-- Models the output resampler
`SincFixedIn::<f32>::new(out_sr / 48000.0, …, 480, 1)` of
`AudioSession::create` for a 96 kHz playback device, applied to an
all-zero input frame: a linear resampler at ratio 2 emits twice as many
samples and maps the zero frame to zeros. -/
def resampleDoubleZero (l : List ℚ) : List ℚ := List.replicate (2 * l.length) 0

/-- Gate states of the specification's §4.F gate state machine. -/
inductive GateState where
  | Closed : GateState
  | Open : Nat → GateState

/-- Peak absolute sample of a frame. -/
def framePeak (frame : List ℚ) : ℚ := frame.foldl (fun m s => max m |s|) 0

/-- Modelled from the spec: §4.F "State machine for gate (when
enabled)", which has no counterpart anywhere in the source.  States
`Closed` and `Open(hold_remaining)`; on a frame whose peak |sample|
exceeds the threshold, enter `Open(hold_frames)`; each subsequent
sub-threshold frame decrements the hold, returning to `Closed` at zero;
the output is zero in `Closed` and the processed frame in `Open`. -/
def specGateStep (threshold : ℚ) (hold_frames : Nat) (st : GateState)
    (frame : List ℚ) : GateState × List ℚ :=
  if threshold < framePeak frame then (GateState.Open hold_frames, frame)
  else
    match st with
    | GateState.Closed => (GateState.Closed, List.replicate 480 0)
    | GateState.Open h =>
      if h ≤ 1 then (GateState.Closed, frame)
      else (GateState.Open (h - 1), frame)

/-- `GlobalAudioState` from `main.rs` / `audio_service.rs`: the single
shared transmit flag (an `AtomicBool` in the source). -/
structure GlobalAudioState where
  is_transmitting : Bool

/-- The global state constructed at program start in `main`
(`main.rs` lines 281–283): `is_transmitting: AtomicBool::new(true)`
("Start transmitting by default"). -/
def initialGlobalState : GlobalAudioState := { is_transmitting := true }

/-! ## `audio_service.rs`: the session ring buffers -/

/-- Functional model of the `ringbuf` crate's `HeapRb` single-producer/
single-consumer queue as used by the session: a bounded FIFO.  The
crate is external; `try_push`/`try_pop` carry its documented
non-blocking semantics. -/
structure HeapRb (α : Type) where
  cap : Nat
  buf : List α

/-- `HeapRb::new(cap)`: an empty ring of the given capacity. -/
def HeapRb.new (α : Type) (cap : Nat) : HeapRb α := ⟨cap, []⟩

/-- `Producer::try_push`: on a full ring it fails without waiting and
leaves the ring unchanged (the caller `let _ = prod.try_push(s)` drops
the sample). -/
def tryPush {α : Type} (r : HeapRb α) (x : α) : Option (HeapRb α) :=
  if r.buf.length < r.cap then some ⟨r.cap, r.buf ++ [x]⟩ else none

/-- `Consumer::try_pop`: on an empty ring it fails without waiting. -/
def tryPop {α : Type} (r : HeapRb α) : Option (α × HeapRb α) :=
  match r.buf with
  | [] => none
  | x :: rest => some (x, ⟨r.cap, rest⟩)

/-- The capacity passed to both `HeapRb::<f32>::new` calls in
`AudioSession::create` (`audio_service.rs` lines 159–160):
`48000 * 2`. -/
def sessionRingCapacity : Nat := 48000 * 2

/-- The playback callback's sample draw in `AudioSession::create`
(line 177): `cons_out.try_pop().unwrap_or(0.0)` — underflow substitutes
zero and leaves the ring as is. -/
def playbackSample (r : HeapRb ℚ) : ℚ × HeapRb ℚ :=
  match tryPop r with
  | none => (0, r)
  | some (s, r2) => (s, r2)

/-! ## `audio_service.rs` / `main.rs`: `get_professional_device_list`

The enumerator is effectful only through the host's device-name
enumeration; it is embedded as a function of the list of input device
names the host reports.  Rust's string operations are modelled on
Lean's `String` (the ALSA ids the filter inspects are ASCII;
`to_lowercase` is ASCII lowercasing there, and Rust's byte-order
`String::cmp` coincides with Lean's code-point order on UTF-8). -/

/-- `AudioDeviceInfo` from the source. -/
structure AudioDeviceInfo where
  id : String
  display_name : String
deriving DecidableEq

/-- Rust `str::to_lowercase` on the ASCII ids the enumerator sees. -/
def lowercase (s : String) : String := ⟨s.data.map Char.toLower⟩

/-- Rust `str::starts_with(pat)`, structurally on the characters. -/
def startsWithList : List Char → List Char → Bool
  | _, [] => true
  | [], _ :: _ => false
  | c :: s, p :: ps => c == p && startsWithList s ps

/-- Rust `str::contains(pat)`: substring containment, structurally. -/
def containsList : List Char → List Char → Bool
  | [], pat => pat.isEmpty
  | c :: rest, pat => startsWithList (c :: rest) pat || containsList rest pat

/-- Rust `str::starts_with` on `String`. -/
def strStartsWith (s pat : String) : Bool := startsWithList s.data pat.data

/-- Rust `str::contains` on `String`. -/
def containsSub (s pat : String) : Bool := containsList s.data pat.data

/-- The first occurrence of a (non-empty) pattern in a character list:
`some (before, after)` when the pattern occurs. -/
def splitFirst : List Char → List Char → Option (List Char × List Char)
  | [], _ => none
  | c :: rest, pat =>
    if startsWithList (c :: rest) pat then
      some ([], (c :: rest).drop pat.length)
    else
      match splitFirst rest pat with
      | none => none
      | some (pre, post) => some (c :: pre, post)

/-- The synthetic default entry pushed first. -/
def defaultDeviceEntry : AudioDeviceInfo :=
  { id := "default", display_name := "Sistem Varsayılanı (Pulse/Pipewire)" }

/-- The filtering rules of `get_professional_device_list`: raw `hw:`
nodes, mix/snoop/surround/positional/digital/hdmi/null nodes and a
literal `default` id are excluded (`continue`); of the rest only the
`sysdefault`/`plughw` abstractions are kept (`is_reliable`). -/
def deviceKept (id : String) : Bool :=
  let l_id := lowercase id
  if strStartsWith l_id ("hw:") || containsSub l_id ("dmix")
      || containsSub l_id ("dsnoop") || containsSub l_id ("surround")
      || containsSub l_id ("front") || containsSub l_id ("rear")
      || containsSub l_id ("center") || containsSub l_id ("side")
      || containsSub l_id ("iec958") || containsSub l_id ("hdmi")
      || containsSub l_id ("null") || id == ("default") then false
  else containsSub l_id ("sysdefault") || containsSub l_id ("plughw")

/-- Rust `id.split("CARD=").nth(1)`: the piece between the first and
second occurrences of `CARD=` (to the end when there is no second),
`none` when `CARD=` does not occur at all. -/
def cardPiece (id : String) : Option String :=
  match splitFirst id.data ("CARD=").data with
  | none => none
  | some (_, after) =>
    match splitFirst after ("CARD=").data with
    | none => some ⟨after⟩
    | some (pre, _) => some ⟨pre⟩

/-- Rust `card_part.split(',').next().unwrap_or(card_part)`: the part
up to the first comma. -/
def upToComma (s : String) : String :=
  match splitFirst s.data (",").data with
  | none => s
  | some (pre, _) => ⟨pre⟩

/-- The friendly-name derivation (`clean_name`):
`id.split("CARD=").nth(1)`, then up to the first comma, suffixed with
the abstraction tag; ids without `CARD=` fall back to the id itself. -/
def cleanName (id : String) : String :=
  match cardPiece id with
  | some card_part =>
    let raw_name := upToComma card_part
    if containsSub (lowercase id) ("sysdefault") then
      raw_name ++ (" (System Default)")
    else raw_name ++ (" (Direct/Plug)")
  | none => id

/-- One iteration of the enumeration loop: filtered ids are skipped;
kept ids are appended unless their display name was already seen
(deduplication by display name).  The state is the accumulated list and
the `seen_friendly` set, modelled as the list of seen names. -/
def deviceStep (st : List AudioDeviceInfo × List String) (id : String) :
    List AudioDeviceInfo × List String :=
  if deviceKept id then
    let clean := cleanName id
    if st.2.contains clean then st
    else (st.1 ++ [{ id := id, display_name := clean }], clean :: st.2)
  else st

/-- Lexicographic comparison of character lists by code point
(structural, so that it evaluates inside the kernel). -/
def charListLt : List Char → List Char → Bool
  | [], [] => false
  | [], _ :: _ => true
  | _ :: _, [] => false
  | a :: as, b :: bs => decide (a < b) || (a == b && charListLt as bs)

/-- Rust `String` `<`: lexicographic byte order.  On UTF-8, byte order
and code-point order coincide, and Lean's `String` order is the
latter (`strLt_iff` below). -/
def strLt (x y : String) : Bool := charListLt x.data y.data

/-- Rust `String::cmp` as an `Ordering`. -/
def strCmp (x y : String) : Ordering :=
  if strLt x y then Ordering.lt else if x = y then Ordering.eq else Ordering.gt

/-- The `sort_by` comparator of `get_professional_device_list`
(`audio_service.rs` lines 111–115): the synthetic default compares
below everything, everything else by `display_name`. -/
def deviceCmp (x y : AudioDeviceInfo) : Ordering :=
  if x.id = ("default") then Ordering.lt
  else if y.id = ("default") then Ordering.gt
  else strCmp x.display_name y.display_name

/-- `x` may precede `y` under the comparator: `deviceCmp x y ≠ Greater`.
A comparison sort orders its output exactly so that consecutive
elements satisfy this. -/
def deviceLe (x y : AudioDeviceInfo) : Prop := deviceCmp x y ≠ Ordering.gt

instance deviceLeDecidable : DecidableRel deviceLe := fun x y => by
  unfold deviceLe
  infer_instance

/-- `get_professional_device_list` (`audio_service.rs` lines 53–118,
duplicated in `main.rs`), as a function of the host's input device
names: push the synthetic default, filter/label/deduplicate the host
names, then `sort_by` the comparator — modelled as a stable insertion
sort, which any comparison sort equals here because the comparator
admits no ties between distinct entries of the built list. -/
def get_professional_device_list (names : List String) : List AudioDeviceInfo :=
  let built := names.foldl deviceStep
    ([defaultDeviceEntry], [defaultDeviceEntry.display_name])
  List.insertionSort deviceLe built.1

/-! ## Theorems -/

/-- Bit mask lemma: for `x < 2 ^ 32`, masking with `0xFFFFFFF0`
clears the low four bits, i.e. rounds down to a multiple of 16. -/
theorem and_mask16_eq (x : Nat) (hx : x < 2 ^ 32) :
    x &&& (2 ^ 32 - 16) = x / 16 * 16 := by
  have hmask : (2 : Nat) ^ 32 - 16 = (2 ^ 28 - 1) <<< 4 := by
    rw [Nat.shiftLeft_eq]
    norm_num
  have hdiv : x / 16 * 16 = (x >>> 4) <<< 4 := by
    rw [Nat.shiftRight_eq_div_pow, Nat.shiftLeft_eq]
  apply Nat.eq_of_testBit_eq
  intro i
  rw [Nat.testBit_and, hmask, hdiv, Nat.testBit_shiftLeft, Nat.testBit_shiftLeft,
    Nat.testBit_two_pow_sub_one, Nat.testBit_shiftRight]
  by_cases h4 : 4 ≤ i
  · by_cases h32 : i < 32
    · have h28 : i - 4 < 28 := by omega
      have h44 : 4 + (i - 4) = i := by omega
      simp [h4, h28, h44]
    · have h28 : ¬ (i - 4 < 28) := by omega
      have h44 : 4 + (i - 4) = i := by omega
      have hxb : x.testBit i = false := by
        apply Nat.testBit_lt_two_pow
        calc x < 2 ^ 32 := hx
          _ ≤ 2 ^ i := Nat.pow_le_pow_right (by norm_num) (by omega)
      simp [h28, h44, hxb]
  · simp [h4]

/-- C8: for every `n ≤ 2 ^ 20`, `align_to_16 n` is the smallest `m ≥ n`
with `m % 16 = 0`; in particular `align_to_16 1080 = 1088`,
`align_to_16 854 = 864` and `align_to_16 720 = 720` (witness). -/
theorem align_to_16_is_smallest (n : Nat) (h : n ≤ 2 ^ 20) :
    n ≤ align_to_16 n ∧ align_to_16 n % 16 = 0 ∧
      ∀ m, n ≤ m → m % 16 = 0 → align_to_16 n ≤ m := by
  have h1 : (n + (VAAPI_ALIGNMENT - 1)) % 2 ^ 32 = n + 15 := by
    have : VAAPI_ALIGNMENT - 1 = 15 := rfl
    rw [this, Nat.mod_eq_of_lt (by omega)]
  unfold align_to_16
  rw [h1]
  have h2 : (2 : Nat) ^ 32 - VAAPI_ALIGNMENT = 2 ^ 32 - 16 := rfl
  rw [h2, and_mask16_eq (n + 15) (by omega)]
  refine ⟨by omega, by omega, fun m hm hm16 => by omega⟩

/-- Witness for C8: the theorem applied at `n = 1080`, giving the
published values `align_to_16 1080 = 1088`, `align_to_16 854 = 864`,
`align_to_16 720 = 720`. -/
theorem align_to_16_witness :
    align_to_16 1080 = 1088 ∧ align_to_16 854 = 864 ∧ align_to_16 720 = 720 := by
  have h := align_to_16_is_smallest 1080 (by norm_num)
  have h1088 := h.2.2 1088 (by norm_num) (by norm_num)
  have e854 : align_to_16 854 = 864 := by decide
  have e720 : align_to_16 720 = 720 := by decide
  exact ⟨by omega, e854, e720⟩

/-- The scaled source coordinate stays inside the source extent:
for `0 < D ≤ S` and `d < D`, `(d * ((S << 16) / D)) >> 16 < S`. -/
theorem scaledSrcCoord_lt (S D d : Nat) (hD : 0 < D) (hDS : D ≤ S) (hd : d < D) :
    scaledSrcCoord (scaleFactor S D) d < S := by
  have hS : 0 < S := lt_of_lt_of_le hD hDS
  unfold scaledSrcCoord scaleFactor
  rw [Nat.shiftLeft_eq, Nat.shiftRight_eq_div_pow]
  have step1 : d * (S * 2 ^ 16 / D) ≤ d * (S * 2 ^ 16) / D :=
    Nat.mul_div_le_mul_div_assoc d (S * 2 ^ 16) D
  have step2 : d * (S * 2 ^ 16) / D / 2 ^ 16 = d * S / D := by
    rw [Nat.div_div_eq_div_mul]
    have : d * (S * 2 ^ 16) = d * S * 2 ^ 16 := by ring
    rw [this, Nat.mul_div_mul_right _ _ (by norm_num : (0 : Nat) < 2 ^ 16)]
  have step3 : d * S / D ≤ (D - 1) * S / D :=
    Nat.div_le_div_right (Nat.mul_le_mul_right S (by omega))
  have key : (D - 1) * S ≤ D * (S - 1) := by
    have e1 : (D - 1) * S = D * S - S := by
      rw [Nat.sub_mul, one_mul]
    have e2 : D * (S - 1) = D * S - D := by
      rw [Nat.mul_sub, mul_one]
    rw [e1, e2]
    exact Nat.sub_le_sub_left hDS _
  have step4 : (D - 1) * S / D ≤ S - 1 := by
    calc (D - 1) * S / D ≤ D * (S - 1) / D := Nat.div_le_div_right key
      _ = S - 1 := Nat.mul_div_cancel_left _ hD
  have chain : d * (S * 2 ^ 16 / D) / 2 ^ 16 ≤ S - 1 := by
    calc d * (S * 2 ^ 16 / D) / 2 ^ 16
        ≤ d * (S * 2 ^ 16) / D / 2 ^ 16 := Nat.div_le_div_right step1
      _ = d * S / D := step2
      _ ≤ (D - 1) * S / D := step3
      _ ≤ S - 1 := step4
  omega

/-- C7: every BGRA byte index computed in `bgra_to_i420_scaled` from the
16-bit fixed-point scale factors lies within `[0, Sw·Sh·4 − 4]`: for any
source `(Sw, Sh)` and destination `(Dw, Dh)` with `0 < Dw ≤ Sw` and
`0 < Dh ≤ Sh`, and any destination coordinate `(dx, dy)` visited by the
Y loop (`dx < Dw`, `dy < Dh` — the chroma loop feeds `2·dx` with
`dx < Dw/2`, an instance of the same bound), the sampled index is inside
a `4·Sw·Sh` buffer. -/
theorem bgra_to_i420_scaled_idx_le (Sw Sh Dw Dh dx dy : Nat)
    (hDw : 0 < Dw) (hDh : 0 < Dh) (hw : Dw ≤ Sw) (hh : Dh ≤ Sh)
    (hdx : dx < Dw) (hdy : dy < Dh) :
    scaledBgraIdx Sw (scaledSrcCoord (scaleFactor Sh Dh) dy)
      (scaledSrcCoord (scaleFactor Sw Dw) dx) ≤ Sw * Sh * 4 - 4 := by
  have hx := scaledSrcCoord_lt Sw Dw dx hDw hw hdx
  have hy := scaledSrcCoord_lt Sh Dh dy hDh hh hdy
  unfold scaledBgraIdx
  set sx := scaledSrcCoord (scaleFactor Sw Dw) dx with hsx
  set sy := scaledSrcCoord (scaleFactor Sh Dh) dy with hsy
  have key : sy * Sw + sx + 1 ≤ Sw * Sh := by
    have h1 : (sy + 1) * Sw ≤ Sh * Sw := Nat.mul_le_mul_right Sw (by omega)
    have h2 : (sy + 1) * Sw = sy * Sw + Sw := by ring
    have h3 : Sh * Sw = Sw * Sh := by ring
    rw [h2, h3] at h1
    omega
  omega

/-- Witness for C7: the theorem applied at the spec's S4 scenario,
3840×2160 downscaled to 1280×720, at the last destination pixel. -/
theorem bgra_to_i420_scaled_idx_le_witness :
    scaledBgraIdx 3840 (scaledSrcCoord (scaleFactor 2160 720) 719)
      (scaledSrcCoord (scaleFactor 3840 1280) 1279) ≤ 3840 * 2160 * 4 - 4 :=
  bgra_to_i420_scaled_idx_le 3840 2160 1280 720 1279 719
    (by norm_num) (by norm_num) (by norm_num) (by norm_num) (by norm_num) (by norm_num)

/-- Generic loop lemma for `foldN`: a loop body that succeeds and
preserves an invariant yields a successful loop preserving it. -/
theorem foldN_inv {σ : Type} (f : Nat → σ → Option σ) (P : σ → Prop) (n : Nat)
    (hf : ∀ i, i < n → ∀ s, P s → ∃ s', f i s = some s' ∧ P s') :
    ∀ s, P s → ∃ s', foldN f n s = some s' ∧ P s' := by
  induction n with
  | zero => exact fun s hs => ⟨s, rfl, hs⟩
  | succ n ih =>
    intro s hs
    obtain ⟨s1, h1, h2⟩ := ih (fun i hi => hf i (by omega)) s hs
    obtain ⟨s2, h3, h4⟩ := hf n (by omega) s1 h2
    exact ⟨s2, by simp [foldN, h1, h3], h4⟩

/-- Row-major pixel coordinates stay inside the plane. -/
theorem pixelIdx_lt (W H px py : Nat) (hpx : px < W) (hpy : py < H) :
    py * W + px < W * H := by
  have h1 : (py + 1) * W ≤ H * W := Nat.mul_le_mul_right W (by omega)
  have h2 : (py + 1) * W = py * W + W := by ring
  have h3 : H * W = W * H := by ring
  rw [h2, h3] at h1
  omega

/-- Length of a solid BGRA buffer: 4 bytes per pixel. -/
theorem solidBGRA_length (b g r a n : Nat) : (solidBGRA b g r a n).length = 4 * n := by
  induction n with
  | zero => rfl
  | succ n ih => simp [solidBGRA, ih]; ring

/-- Reading the B, G, R components of pixel `k` of a solid BGRA buffer. -/
theorem solidBGRA_read (b g r a n k : Nat) (hk : k < n) :
    (solidBGRA b g r a n)[k * 4]? = some b ∧
    (solidBGRA b g r a n)[k * 4 + 1]? = some g ∧
    (solidBGRA b g r a n)[k * 4 + 2]? = some r := by
  induction n generalizing k with
  | zero => omega
  | succ n ih =>
    match k with
    | 0 => exact ⟨rfl, rfl, rfl⟩
    | k + 1 =>
      have e0 : (k + 1) * 4 = k * 4 + 1 + 1 + 1 + 1 := by ring
      have e1 : (k + 1) * 4 + 1 = k * 4 + 1 + 1 + 1 + 1 + 1 := by ring
      have e2 : (k + 1) * 4 + 2 = k * 4 + 2 + 1 + 1 + 1 + 1 := by ring
      obtain ⟨g0, g1, g2⟩ := ih k (by omega)
      refine ⟨?_, ?_, ?_⟩
      · rw [e0]; simpa [solidBGRA] using g0
      · rw [e1]; simpa [solidBGRA] using g1
      · rw [e2]; simpa [solidBGRA] using g2

/-- Writing the constant `c` preserves positions already equal to `c`. -/
theorem getElem?_set_const (l : List Nat) (c j i : Nat)
    (h : l[i]? = some c) : (l.set j c)[i]? = some c := by
  have hi : i < l.length := by
    by_contra hn
    rw [List.getElem?_eq_none (by omega)] at h
    exact Option.noConfusion h
  rcases eq_or_ne j i with rfl | hne
  · rw [List.getElem?_set_eq hi]
  · rw [List.getElem?_set_ne hne]; exact h

/-- `pixelStep` on a solid buffer: the guard passes, the pixel's luma
sample is written, and each colour sum grows by the pixel's component. -/
theorem pixelStep_solid (b g r a W H blockX blockY dx dy : Nat)
    (hx : blockX < W / 2) (hy : blockY < H / 2) (hdx : dx < 2) (hdy : dy < 2)
    (yp : List Nat) (hyp : yp.length = W * H) (rs gs bs : Int) :
    pixelStep (solidBGRA b g r a (W * H)) W blockX blockY dx dy (yp, rs, gs, bs) =
      some (yp.set ((blockY * 2 + dy) * W + (blockX * 2 + dx))
          (yValue r g b).toNat, rs + r, gs + g, bs + b) := by
  have hpx : blockX * 2 + dx < W := by omega
  have hpy : blockY * 2 + dy < H := by omega
  have hk := pixelIdx_lt W H (blockX * 2 + dx) (blockY * 2 + dy) hpx hpy
  have hlen := solidBGRA_length b g r a (W * H)
  obtain ⟨gB, gG, gR⟩ :=
    solidBGRA_read b g r a (W * H) ((blockY * 2 + dy) * W + (blockX * 2 + dx)) hk
  unfold pixelStep
  rw [if_neg (by omega)]
  rw [gB, gG, gR]
  simp only [Option.bind_eq_bind, Option.some_bind, setAt]
  rw [if_pos (by omega)]
  rfl

/-- `blockStep` on a solid buffer: the four luma samples of the block
are written, the averages collapse to the pixel colour, and the block's
U/V samples are written. -/
theorem blockStep_solid (b g r a W H blockX blockY : Nat)
    (hx : blockX < W / 2) (hy : blockY < H / 2)
    (st : I420Planes) (hyl : st.y.length = W * H)
    (hul : st.u.length = W / 2 * (H / 2)) (hvl : st.v.length = W / 2 * (H / 2)) :
    blockStep (solidBGRA b g r a (W * H)) W blockY blockX st = some
      { y := (((st.y.set ((blockY * 2 + 0) * W + (blockX * 2 + 0)) (yValue r g b).toNat).set
                ((blockY * 2 + 0) * W + (blockX * 2 + 1)) (yValue r g b).toNat).set
                ((blockY * 2 + 1) * W + (blockX * 2 + 0)) (yValue r g b).toNat).set
                ((blockY * 2 + 1) * W + (blockX * 2 + 1)) (yValue r g b).toNat,
        u := st.u.set (blockY * (W / 2) + blockX) (uValue r g b).toNat,
        v := st.v.set (blockY * (W / 2) + blockX) (vValue r g b).toNat } := by
  have huv := pixelIdx_lt (W / 2) (H / 2) blockX blockY hx hy
  have p1 := pixelStep_solid b g r a W H blockX blockY 0 0 hx hy (by omega) (by omega)
    st.y hyl 0 0 0
  have p2 := pixelStep_solid b g r a W H blockX blockY 1 0 hx hy (by omega) (by omega)
    (st.y.set ((blockY * 2 + 0) * W + (blockX * 2 + 0)) (yValue r g b).toNat)
    (by simp [hyl]) (0 + r) (0 + g) (0 + b)
  have p3 := pixelStep_solid b g r a W H blockX blockY 0 1 hx hy (by omega) (by omega)
    ((st.y.set ((blockY * 2 + 0) * W + (blockX * 2 + 0)) (yValue r g b).toNat).set
      ((blockY * 2 + 0) * W + (blockX * 2 + 1)) (yValue r g b).toNat)
    (by simp [hyl]) (0 + r + r) (0 + g + g) (0 + b + b)
  have p4 := pixelStep_solid b g r a W H blockX blockY 1 1 hx hy (by omega) (by omega)
    (((st.y.set ((blockY * 2 + 0) * W + (blockX * 2 + 0)) (yValue r g b).toNat).set
      ((blockY * 2 + 0) * W + (blockX * 2 + 1)) (yValue r g b).toNat).set
      ((blockY * 2 + 1) * W + (blockX * 2 + 0)) (yValue r g b).toNat)
    (by simp [hyl]) (0 + r + r + r) (0 + g + g + g) (0 + b + b + b)
  have havg : ∀ x : Int, Int.tdiv (0 + x + x + x + x) 4 = x := by
    intro x
    have h4 : (0 : Int) + x + x + x + x = 4 * x := by ring
    rw [h4]
    exact Int.mul_tdiv_cancel_left x (by norm_num)
  simp only [blockStep, Option.bind_eq_bind]
  rw [p1]
  simp only [Option.some_bind]
  rw [p2]
  simp only [Option.some_bind]
  rw [p3]
  simp only [Option.some_bind]
  rw [p4]
  simp only [Option.some_bind]
  rw [havg, havg, havg]
  rw [if_pos (show blockY * (W / 2) + blockX < st.u.length by omega)]
  simp only [setAt]
  rw [if_pos (show blockY * (W / 2) + blockX < st.v.length by omega)]
  rfl

/-- `(l.set i v)[i]? = some v` for an in-bounds write. -/
theorem getElem?_set_here (l : List Nat) (i v : Nat) (h : i < l.length) :
    (l.set i v)[i]? = some v := List.getElem?_set_eq h

/-- Inner loop of `bgra_to_i420` on a solid buffer: after the first `n`
blocks of row `blockY`, the loop has succeeded, the plane lengths are
unchanged, previously constant samples persist, and every sample of the
first `n` blocks of the row holds its constant. -/
theorem rowFold_solid (b g r a W H blockY : Nat) (hy : blockY < H / 2) :
    ∀ n, n ≤ W / 2 → ∀ st : I420Planes, st.y.length = W * H →
      st.u.length = W / 2 * (H / 2) → st.v.length = W / 2 * (H / 2) →
    ∃ st', foldN (fun blockX st0 =>
          blockStep (solidBGRA b g r a (W * H)) W blockY blockX st0) n st = some st' ∧
      st'.y.length = W * H ∧ st'.u.length = W / 2 * (H / 2) ∧
      st'.v.length = W / 2 * (H / 2) ∧
      (∀ i : Nat, st.y[i]? = some (yValue r g b).toNat → st'.y[i]? = some (yValue r g b).toNat) ∧
      (∀ i : Nat, st.u[i]? = some (uValue r g b).toNat → st'.u[i]? = some (uValue r g b).toNat) ∧
      (∀ i : Nat, st.v[i]? = some (vValue r g b).toNat → st'.v[i]? = some (vValue r g b).toNat) ∧
      (∀ j, j < n → ∀ dy, dy < 2 → ∀ dx, dx < 2 →
        st'.y[(blockY * 2 + dy) * W + (j * 2 + dx)]? = some (yValue r g b).toNat) ∧
      (∀ j, j < n → st'.u[blockY * (W / 2) + j]? = some (uValue r g b).toNat) ∧
      (∀ j, j < n → st'.v[blockY * (W / 2) + j]? = some (vValue r g b).toNat) := by
  intro n
  induction n with
  | zero =>
    intro _ st h1 h2 h3
    exact ⟨st, rfl, h1, h2, h3, fun _ h => h, fun _ h => h, fun _ h => h,
      fun j hj => absurd hj (Nat.not_lt_zero j), fun j hj => absurd hj (Nat.not_lt_zero j),
      fun j hj => absurd hj (Nat.not_lt_zero j)⟩
  | succ n ih =>
    intro hn st h1 h2 h3
    obtain ⟨st1, e1, l1, l2, l3, m1, m2, m3, c1, c2, c3⟩ := ih (by omega) st h1 h2 h3
    have hb := blockStep_solid b g r a W H n blockY (by omega) hy st1 l1 l2 l3
    refine ⟨⟨(((st1.y.set ((blockY * 2 + 0) * W + (n * 2 + 0)) (yValue r g b).toNat).set
        ((blockY * 2 + 0) * W + (n * 2 + 1)) (yValue r g b).toNat).set
        ((blockY * 2 + 1) * W + (n * 2 + 0)) (yValue r g b).toNat).set
        ((blockY * 2 + 1) * W + (n * 2 + 1)) (yValue r g b).toNat,
      st1.u.set (blockY * (W / 2) + n) (uValue r g b).toNat,
      st1.v.set (blockY * (W / 2) + n) (vValue r g b).toNat⟩,
      ?_, ?_, ?_, ?_, ?_, ?_, ?_, ?_, ?_, ?_⟩
    · simp only [foldN, Option.bind_eq_bind, e1, Option.some_bind]
      exact hb
    · simp [l1]
    · simp [l2]
    · simp [l3]
    · intro i hi
      exact getElem?_set_const _ _ _ _ (getElem?_set_const _ _ _ _
        (getElem?_set_const _ _ _ _ (getElem?_set_const _ _ _ _ (m1 i hi))))
    · intro i hi
      exact getElem?_set_const _ _ _ _ (m2 i hi)
    · intro i hi
      exact getElem?_set_const _ _ _ _ (m3 i hi)
    · intro j hj dy hdy dx hdx
      rcases Nat.lt_succ_iff_lt_or_eq.mp hj with hj' | rfl
      · exact getElem?_set_const _ _ _ _ (getElem?_set_const _ _ _ _
          (getElem?_set_const _ _ _ _ (getElem?_set_const _ _ _ _ (c1 j hj' dy hdy dx hdx))))
      · have hpos : ∀ dy' dx' : Nat, dy' < 2 → dx' < 2 →
            (blockY * 2 + dy') * W + (j * 2 + dx') < W * H := by
          intro dy' dx' hdy' hdx'
          exact pixelIdx_lt W H (j * 2 + dx') (blockY * 2 + dy') (by omega) (by omega)
        interval_cases dy <;> interval_cases dx
        · exact getElem?_set_const _ _ _ _ (getElem?_set_const _ _ _ _
            (getElem?_set_const _ _ _ _
              (getElem?_set_here _ _ _ (by simp [l1]; exact hpos 0 0 (by omega) (by omega)))))
        · exact getElem?_set_const _ _ _ _ (getElem?_set_const _ _ _ _
            (getElem?_set_here _ _ _ (by simp [l1]; exact hpos 0 1 (by omega) (by omega))))
        · exact getElem?_set_const _ _ _ _
            (getElem?_set_here _ _ _ (by simp [l1]; exact hpos 1 0 (by omega) (by omega)))
        · exact getElem?_set_here _ _ _ (by simp [l1]; exact hpos 1 1 (by omega) (by omega))
    · intro j hj
      rcases Nat.lt_succ_iff_lt_or_eq.mp hj with hj' | rfl
      · exact getElem?_set_const _ _ _ _ (c2 j hj')
      · exact getElem?_set_here _ _ _ (by rw [l2]; exact pixelIdx_lt _ _ j blockY (by omega) hy)
    · intro j hj
      rcases Nat.lt_succ_iff_lt_or_eq.mp hj with hj' | rfl
      · exact getElem?_set_const _ _ _ _ (c3 j hj')
      · exact getElem?_set_here _ _ _ (by rw [l3]; exact pixelIdx_lt _ _ j blockY (by omega) hy)

/-- Outer loop of `bgra_to_i420` on a solid buffer: after the first `m`
block rows, every sample of those rows holds its constant. -/
theorem colFold_solid (b g r a W H : Nat) :
    ∀ m, m ≤ H / 2 → ∀ st : I420Planes, st.y.length = W * H →
      st.u.length = W / 2 * (H / 2) → st.v.length = W / 2 * (H / 2) →
    ∃ st', foldN (fun blockY st0 => foldN (fun blockX st1 =>
          blockStep (solidBGRA b g r a (W * H)) W blockY blockX st1) (W / 2) st0) m st
        = some st' ∧
      st'.y.length = W * H ∧ st'.u.length = W / 2 * (H / 2) ∧
      st'.v.length = W / 2 * (H / 2) ∧
      (∀ bY, bY < m → ∀ dy, dy < 2 → ∀ j, j < W / 2 → ∀ dx, dx < 2 →
        st'.y[(bY * 2 + dy) * W + (j * 2 + dx)]? = some (yValue r g b).toNat) ∧
      (∀ bY, bY < m → ∀ j, j < W / 2 →
        st'.u[bY * (W / 2) + j]? = some (uValue r g b).toNat) ∧
      (∀ bY, bY < m → ∀ j, j < W / 2 →
        st'.v[bY * (W / 2) + j]? = some (vValue r g b).toNat) := by
  intro m
  induction m with
  | zero =>
    intro _ st h1 h2 h3
    exact ⟨st, rfl, h1, h2, h3, fun bY hbY => absurd hbY (Nat.not_lt_zero bY),
      fun bY hbY => absurd hbY (Nat.not_lt_zero bY),
      fun bY hbY => absurd hbY (Nat.not_lt_zero bY)⟩
  | succ m ih =>
    intro hm st h1 h2 h3
    obtain ⟨st1, e1, l1, l2, l3, cy, cu, cv⟩ := ih (by omega) st h1 h2 h3
    obtain ⟨st2, e2, k1, k2, k3, mm1, mm2, mm3, d1, d2, d3⟩ :=
      rowFold_solid b g r a W H m (by omega) (W / 2) (le_refl _) st1 l1 l2 l3
    refine ⟨st2, ?_, k1, k2, k3, ?_, ?_, ?_⟩
    · simp only [foldN, Option.bind_eq_bind, e1, Option.some_bind]
      exact e2
    · intro bY hbY dy hdy j hj dx hdx
      rcases Nat.lt_succ_iff_lt_or_eq.mp hbY with h' | rfl
      · exact mm1 _ (cy bY h' dy hdy j hj dx hdx)
      · exact d1 j hj dy hdy dx hdx
    · intro bY hbY j hj
      rcases Nat.lt_succ_iff_lt_or_eq.mp hbY with h' | rfl
      · exact mm2 _ (cu bY h' j hj)
      · exact d2 j hj
    · intro bY hbY j hj
      rcases Nat.lt_succ_iff_lt_or_eq.mp hbY with h' | rfl
      · exact mm3 _ (cv bY h' j hj)
      · exact d3 j hj

/-- For even dimensions the chroma plane size `W·H/4` equals
`(W/2)·(H/2)`. -/
theorem quarter_eq (W H : Nat) (hW : W % 2 = 0) (hH : H % 2 = 0) :
    W * H / 4 = W / 2 * (H / 2) := by
  obtain ⟨w, rfl⟩ : ∃ w, W = 2 * w := ⟨W / 2, by omega⟩
  obtain ⟨h', rfl⟩ : ∃ h', H = 2 * h' := ⟨H / 2, by omega⟩
  have e : 2 * w * (2 * h') = 4 * (w * h') := by ring
  rw [e, Nat.mul_div_cancel_left _ (by norm_num)]
  have e2 : 2 * w / 2 = w := by omega
  have e3 : 2 * h' / 2 = h' := by omega
  rw [e2, e3]

/-- C1: on a solid-colour BGRA buffer `(B, G, R, 255)` of even width and
height and the valid length `4·W·H`, `bgra_to_i420` succeeds and fills
the Y plane with `clamp(((66R + 129G + 25B + 128) >> 8) + 16, 0, 255)`
(= `yValue R G B`), the U plane with
`clamp(((−38R − 74G + 112B + 128) >> 8) + 128, 0, 255)` (= `uValue`),
and the V plane with
`clamp(((112R − 94G − 18B + 128) >> 8) + 128, 0, 255)` (= `vValue`), at
every sample. -/
theorem bgra_to_i420_solid (W H cB cG cR : Nat) (hW : W % 2 = 0) (hH : H % 2 = 0)
    (hB : cB < 256) (hG : cG < 256) (hR : cR < 256)
    (planes : I420Planes) (hy : planes.y.length = W * H)
    (hu : planes.u.length = W * H / 4) (hv : planes.v.length = W * H / 4) :
    ∃ out, bgra_to_i420 (solidBGRA cB cG cR 255 (W * H)) W H planes = some out ∧
      (∀ i, i < W * H → out.y[i]? = some (yValue cR cG cB).toNat) ∧
      (∀ i, i < W * H / 4 → out.u[i]? = some (uValue cR cG cB).toNat) ∧
      (∀ i, i < W * H / 4 → out.v[i]? = some (vValue cR cG cB).toNat) := by
  have hQ := quarter_eq W H hW hH
  obtain ⟨out, e, l1, l2, l3, cy, cu, cv⟩ :=
    colFold_solid cB cG cR 255 W H (H / 2) (le_refl _) planes hy (hQ ▸ hu) (hQ ▸ hv)
  refine ⟨out, e, ?_, ?_, ?_⟩
  · intro i hi
    have hW0 : 0 < W := by
      rcases Nat.eq_zero_or_pos W with h0 | h
      · rw [h0, zero_mul] at hi; omega
      · exact h
    have hpy : i / W < H := by
      rw [Nat.div_lt_iff_lt_mul hW0]
      rwa [Nat.mul_comm] at hi
    have hpx : i % W < W := Nat.mod_lt _ hW0
    have hdec : i / W * W + i % W = i := by
      calc i / W * W + i % W = W * (i / W) + i % W := by ring
        _ = i := Nat.div_add_mod i W
    have hc := cy (i / W / 2) (by omega) (i / W % 2) (by omega)
      (i % W / 2) (by omega) (i % W % 2) (by omega)
    have ea : i / W / 2 * 2 + i / W % 2 = i / W := by omega
    have eb : i % W / 2 * 2 + i % W % 2 = i % W := by omega
    rw [ea, eb, hdec] at hc
    exact hc
  · intro i hi
    rw [hQ] at hi
    have hW2 : 0 < W / 2 := by
      rcases Nat.eq_zero_or_pos (W / 2) with h0 | h
      · rw [h0, zero_mul] at hi; omega
      · exact h
    have hbY : i / (W / 2) < H / 2 := by
      rw [Nat.div_lt_iff_lt_mul hW2]
      rwa [Nat.mul_comm] at hi
    have hj : i % (W / 2) < W / 2 := Nat.mod_lt _ hW2
    have hdec : i / (W / 2) * (W / 2) + i % (W / 2) = i := by
      calc i / (W / 2) * (W / 2) + i % (W / 2)
          = W / 2 * (i / (W / 2)) + i % (W / 2) := by ring
        _ = i := Nat.div_add_mod i (W / 2)
    have hc := cu (i / (W / 2)) hbY (i % (W / 2)) hj
    rw [hdec] at hc
    exact hc
  · intro i hi
    rw [hQ] at hi
    have hW2 : 0 < W / 2 := by
      rcases Nat.eq_zero_or_pos (W / 2) with h0 | h
      · rw [h0, zero_mul] at hi; omega
      · exact h
    have hbY : i / (W / 2) < H / 2 := by
      rw [Nat.div_lt_iff_lt_mul hW2]
      rwa [Nat.mul_comm] at hi
    have hj : i % (W / 2) < W / 2 := Nat.mod_lt _ hW2
    have hdec : i / (W / 2) * (W / 2) + i % (W / 2) = i := by
      calc i / (W / 2) * (W / 2) + i % (W / 2)
          = W / 2 * (i / (W / 2)) + i % (W / 2) := by ring
        _ = i := Nat.div_add_mod i (W / 2)
    have hc := cv (i / (W / 2)) hbY (i % (W / 2)) hj
    rw [hdec] at hc
    exact hc

/-- Witness for C1, at `W = H = 2` with the pure-red pixel
`(B, G, R, A) = (0, 0, 255, 255)` of scenario S3: the converter fills
the planes with `Y = 82`, `U = 90`, `V = 240`. -/
theorem bgra_to_i420_solid_witness :
    ((yValue 255 0 0).toNat = 82 ∧ (uValue 255 0 0).toNat = 90 ∧
      (vValue 255 0 0).toNat = 240) ∧
    ∃ out, bgra_to_i420 (solidBGRA 0 0 255 255 (2 * 2)) 2 2
        ⟨[0, 0, 0, 0], [0], [0]⟩ = some out ∧
      (∀ i, i < 2 * 2 → out.y[i]? = some (yValue 255 0 0).toNat) ∧
      (∀ i, i < 2 * 2 / 4 → out.u[i]? = some (uValue 255 0 0).toNat) ∧
      (∀ i, i < 2 * 2 / 4 → out.v[i]? = some (vValue 255 0 0).toNat) :=
  ⟨⟨by decide, by decide, by decide⟩,
    bgra_to_i420_solid 2 2 0 0 255 (by decide) (by decide) (by decide) (by decide)
      (by decide) ⟨[0, 0, 0, 0], [0], [0]⟩ (by decide) (by decide) (by decide)⟩

/-- `pixelStep` never fails on a Y plane of size `W·H`: either the
bounds guard skips the pixel, or the B/G/R reads and the luma write are
all in bounds. -/
theorem pixelStep_total (bgra : List Nat) (W H blockX blockY dx dy : Nat)
    (hx : blockX < W / 2) (hy : blockY < H / 2) (hdx : dx < 2) (hdy : dy < 2)
    (st : List Nat × Int × Int × Int) (hyl : st.1.length = W * H) :
    ∃ st', pixelStep bgra W blockX blockY dx dy st = some st' ∧
      st'.1.length = W * H := by
  have hk := pixelIdx_lt W H (blockX * 2 + dx) (blockY * 2 + dy) (by omega) (by omega)
  simp only [pixelStep]
  split
  · exact ⟨st, rfl, hyl⟩
  · rename_i hg
    rw [List.getElem?_eq_getElem (by omega), List.getElem?_eq_getElem (by omega),
      List.getElem?_eq_getElem (by omega)]
    simp only [Option.bind_eq_bind, Option.some_bind, setAt]
    rw [if_pos (by omega)]
    exact ⟨_, rfl, by simp [hyl]⟩

/-- `blockStep` never fails on planes of sizes `W·H`, `W·H/4`, `W·H/4`:
the pixel guards and the `uv_idx < u_plane.len()` guard keep every
access in bounds. -/
theorem blockStep_total (bgra : List Nat) (W H blockX blockY : Nat)
    (hx : blockX < W / 2) (hy : blockY < H / 2)
    (st : I420Planes) (h1 : st.y.length = W * H) (h2 : st.u.length = W * H / 4)
    (h3 : st.v.length = W * H / 4) :
    ∃ st', blockStep bgra W blockY blockX st = some st' ∧
      st'.y.length = W * H ∧ st'.u.length = W * H / 4 ∧
      st'.v.length = W * H / 4 := by
  obtain ⟨s1, e1, hl1⟩ := pixelStep_total bgra W H blockX blockY 0 0 hx hy
    (by omega) (by omega) (st.y, 0, 0, 0) h1
  obtain ⟨s2, e2, hl2⟩ := pixelStep_total bgra W H blockX blockY 1 0 hx hy
    (by omega) (by omega) s1 hl1
  obtain ⟨s3, e3, hl3⟩ := pixelStep_total bgra W H blockX blockY 0 1 hx hy
    (by omega) (by omega) s2 hl2
  obtain ⟨s4, e4, hl4⟩ := pixelStep_total bgra W H blockX blockY 1 1 hx hy
    (by omega) (by omega) s3 hl3
  simp only [blockStep, Option.bind_eq_bind]
  rw [e1]
  simp only [Option.some_bind]
  rw [e2]
  simp only [Option.some_bind]
  rw [e3]
  simp only [Option.some_bind]
  rw [e4]
  simp only [Option.some_bind]
  by_cases hg : blockY * (W / 2) + blockX < st.u.length
  · rw [if_pos hg]
    simp only [setAt]
    rw [if_pos (by omega)]
    simp only [Option.some_bind]
    exact ⟨_, rfl, hl4, by simp [h2], by simp [h3]⟩
  · rw [if_neg hg]
    exact ⟨_, rfl, hl4, h2, h3⟩

/-- C10: `bgra_to_i420` performs no out-of-bounds access for any BGRA
input slice, of any length, and any I420 planes of sizes `W·H`, `W·H/4`,
`W·H/4`: in this embedding every slice access is checked and a panic
would surface as `none`, and the result is always `some`. -/
theorem bgra_to_i420_no_oob (bgra : List Nat) (W H : Nat) (planes : I420Planes)
    (h1 : planes.y.length = W * H) (h2 : planes.u.length = W * H / 4)
    (h3 : planes.v.length = W * H / 4) :
    ∃ out, bgra_to_i420 bgra W H planes = some out := by
  obtain ⟨out, e, _⟩ := foldN_inv
    (fun blockY st => foldN (fun blockX st' => blockStep bgra W blockY blockX st')
      (W / 2) st)
    (fun st => st.y.length = W * H ∧ st.u.length = W * H / 4 ∧
      st.v.length = W * H / 4)
    (H / 2)
    (fun bY hbY st hst => foldN_inv _ _ (W / 2)
      (fun bX hbX st' hst' => by
        obtain ⟨st'', he, k1, k2, k3⟩ :=
          blockStep_total bgra W H bX bY hbX hbY st' hst'.1 hst'.2.1 hst'.2.2
        exact ⟨st'', he, k1, k2, k3⟩)
      st hst)
    planes ⟨h1, h2, h3⟩
  exact ⟨out, e⟩

/-- Witness for C10: a 2×2 conversion whose BGRA input is a single byte
(shorter than `4·W·H`) still succeeds — the guards skip the
out-of-range pixels. -/
theorem bgra_to_i420_no_oob_witness :
    ∃ out, bgra_to_i420 [7] 2 2 ⟨[9, 9, 9, 9], [9], [9]⟩ = some out :=
  bgra_to_i420_no_oob [7] 2 2 ⟨[9, 9, 9, 9], [9], [9]⟩ (by decide) (by decide)
    (by decide)

/-- Folding `max` over absolute values stays below a bound that holds
for every element and the start value. -/
theorem foldl_max_abs_le (l : List ℚ) (c : ℚ) (h : ∀ s ∈ l, |s| ≤ c) :
    ∀ init, init ≤ c → l.foldl (fun m s => max m |s|) init ≤ c := by
  induction l with
  | nil => exact fun init hi => hi
  | cons a l ih =>
    intro init hi
    exact ih (fun s hs => h s (List.mem_cons_of_mem a hs)) _
      (max_le hi (h a (List.mem_cons_self a l)))

/-- C3: for every 480-sample frame, if `is_transmitting` is false at
gating time, both the gated frame sent toward the output ring and the
frame copied into the echo reference are the all-zero 480-sample frame;
if it is true, the frame sent onward equals the output of the secondary
neural denoise stage. -/
theorem dsp_ptt_gate_frames (cap den res : List ℚ → List ℚ) (frame : List ℚ) :
    ((dspFrameStep cap den res frame false).outputFrame = List.replicate 480 0 ∧
      (dspFrameStep cap den res frame false).renderFeed = List.replicate 480 0) ∧
    (dspFrameStep cap den res frame true).outputFrame = den (cap frame) :=
  ⟨⟨rfl, rfl⟩, rfl⟩

/-- C2 (amended): per frame, the echo-reference feed is byte-identical
to the gated output frame — the frame handed to the playback resampler
— and the output ring receives the resampler's image of that frame
(which coincides with the feed only when the resampler is the
identity). -/
theorem dsp_render_feed_eq_gated (cap den res : List ℚ → List ℚ)
    (frame : List ℚ) (tx : Bool) :
    (dspFrameStep cap den res frame tx).renderFeed =
        (dspFrameStep cap den res frame tx).outputFrame ∧
      (dspFrameStep cap den res frame tx).pushedToRing =
        res ((dspFrameStep cap den res frame tx).outputFrame) :=
  ⟨rfl, rfl⟩

set_option maxRecDepth 4000 in
/-- Counterexample to C2 as stated: with a 96 kHz playback device the
output resampler emits 960 samples per 480-sample frame, so what is
pushed into the output ring is not byte-identical to the render feed —
already their lengths differ (480 vs 960). -/
theorem dsp_render_ring_counterexample :
    (dspFrameStep id id resampleDoubleZero (List.replicate 480 0)
        false).renderFeed ≠
      (dspFrameStep id id resampleDoubleZero (List.replicate 480 0)
        false).pushedToRing := by
  intro h
  have h1 : (dspFrameStep id id resampleDoubleZero (List.replicate 480 0)
      false).renderFeed = List.replicate 480 (0 : ℚ) := rfl
  have h2 : (dspFrameStep id id resampleDoubleZero (List.replicate 480 0)
      false).pushedToRing =
      List.replicate (2 * (List.replicate 480 (0 : ℚ)).length) (0 : ℚ) := rfl
  rw [h1, h2, List.length_replicate] at h
  have hlen := congrArg List.length h
  rw [List.length_replicate, List.length_replicate] at hlen
  omega

/-- C4 (amended): the only gate the DSP engine implements is the
boolean PTT gate: the emitted frame is the denoised processed frame
when `is_transmitting` holds and the all-zero frame otherwise — there
is no threshold/hold state machine in the code. -/
theorem dsp_gate_is_ptt_only (cap den res : List ℚ → List ℚ) (frame : List ℚ)
    (tx : Bool) :
    (dspFrameStep cap den res frame tx).outputFrame =
      if tx then den (cap frame) else List.replicate 480 0 := rfl

/-- Counterexample to C4 as stated: take threshold 1/2, hold 5, machine
state `Closed`, and a processed (denoised) frame of constant amplitude
1/4 — sub-threshold, so the spec's machine emits zero — while the DSP
engine, transmitting, emits the processed frame itself. -/
theorem dsp_gate_machine_counterexample :
    (dspFrameStep id (fun _ => List.replicate 480 (1 / 4 : ℚ)) id
        (List.replicate 480 0) true).outputFrame ≠
      (specGateStep (1 / 2) 5 GateState.Closed
        ((dspFrameStep id (fun _ => List.replicate 480 (1 / 4 : ℚ)) id
          (List.replicate 480 0) true).outputFrame)).2 := by
  have hout : (dspFrameStep id (fun _ => List.replicate 480 (1 / 4 : ℚ)) id
      (List.replicate 480 0) true).outputFrame =
      List.replicate 480 (1 / 4 : ℚ) := rfl
  rw [hout]
  have hpeak : framePeak (List.replicate 480 (1 / 4 : ℚ)) ≤ 1 / 4 := by
    apply foldl_max_abs_le
    · intro s hs
      rw [List.eq_of_mem_replicate hs, abs_of_nonneg (by norm_num)]
    · norm_num
  have hgate : specGateStep (1 / 2) 5 GateState.Closed
      (List.replicate 480 (1 / 4 : ℚ)) =
      (GateState.Closed, List.replicate 480 0) := by
    unfold specGateStep
    rw [if_neg (by push_neg; linarith)]
  rw [hgate]
  intro h
  have hh : some ((1 : ℚ) / 4) = some (0 : ℚ) := congrArg List.head? h
  exact absurd (Option.some.inj hh) (by norm_num)

/-- C9: `is_transmitting` is initialised `true` at program start, so
before any keyboard event the DSP worker gates nothing: the frame sent
onward under the initial state is the processed (denoised) frame. -/
theorem initial_state_transmits (cap den res : List ℚ → List ℚ)
    (frame : List ℚ) :
    initialGlobalState.is_transmitting = true ∧
    (dspFrameStep cap den res frame
        initialGlobalState.is_transmitting).outputFrame = den (cap frame) :=
  ⟨rfl, rfl⟩

/-- C5: the session rings are created with capacity `48000 * 2 = 96000`
samples (two seconds at 48 kHz); `try_push` on a full ring fails
immediately, dropping the sample; `try_pop` on an empty ring fails
immediately, and the playback callback substitutes `0.0`. -/
theorem session_ring_behaviour :
    sessionRingCapacity = 96000 ∧
    (∀ r : HeapRb ℚ, ∀ x : ℚ, r.buf.length = r.cap → tryPush r x = none) ∧
    (∀ r : HeapRb ℚ, r.buf = [] → tryPop r = none ∧ playbackSample r = (0, r)) := by
  refine ⟨rfl, ?_, ?_⟩
  · intro r x h
    unfold tryPush
    rw [if_neg (by omega)]
  · intro r h
    obtain ⟨c, buf⟩ := r
    simp only at h
    subst h
    exact ⟨rfl, rfl⟩

/-- Witness for C5: a full two-slot ring rejects a push; a fresh
session-capacity ring rejects a pop and the playback callback yields
zero. -/
theorem session_ring_behaviour_witness :
    tryPush (⟨2, [(5 : ℚ), 6]⟩ : HeapRb ℚ) 7 = none ∧
    tryPop (HeapRb.new ℚ sessionRingCapacity) = none ∧
    playbackSample (HeapRb.new ℚ sessionRingCapacity) =
      (0, HeapRb.new ℚ sessionRingCapacity) :=
  ⟨session_ring_behaviour.2.1 ⟨2, [5, 6]⟩ 7 rfl,
    (session_ring_behaviour.2.2 (HeapRb.new ℚ sessionRingCapacity) rfl).1,
    (session_ring_behaviour.2.2 (HeapRb.new ℚ sessionRingCapacity) rfl).2⟩

/-- A kept device id is never the literal `"default"` (the filter
excludes it explicitly). -/
theorem deviceKept_ne_default (id : String) (h : deviceKept id = true) :
    id ≠ ("default") := by
  intro heq
  subst heq
  exact absurd h (by decide)

/-- The structural comparison agrees with `List.Lex (· < ·)`. -/
theorem charListLt_iff (as : List Char) : ∀ bs : List Char,
    charListLt as bs = true ↔ List.Lex (· < ·) as bs := by
  induction as with
  | nil =>
    intro bs
    cases bs with
    | nil =>
      constructor
      · intro h; exact absurd h (by decide)
      · intro h; cases h
    | cons b bs =>
      constructor
      · intro _; exact List.Lex.nil
      · intro _; rfl
  | cons a as ih =>
    intro bs
    cases bs with
    | nil =>
      constructor
      · intro h; exact absurd h (by simp [charListLt])
      · intro h; cases h
    | cons b bs =>
      constructor
      · intro h
        rw [show charListLt (a :: as) (b :: bs) =
          (decide (a < b) || (a == b && charListLt as bs)) from rfl] at h
        rw [Bool.or_eq_true] at h
        rcases h with h1 | h1
        · exact List.Lex.rel (of_decide_eq_true h1)
        · rw [Bool.and_eq_true] at h1
          obtain ⟨hab, htail⟩ := h1
          have hab2 : a = b := beq_iff_eq.mp hab
          subst hab2
          exact List.Lex.cons ((ih bs).mp htail)
      · intro h
        show (decide (a < b) || (a == b && charListLt as bs)) = true
        rw [Bool.or_eq_true]
        cases h with
        | cons htail =>
          exact Or.inr (by
            rw [Bool.and_eq_true]
            exact ⟨beq_self_eq_true a, (ih bs).mpr htail⟩)
        | rel hr =>
          exact Or.inl (decide_eq_true hr)

/-- The structural order is Lean's `String` order. -/
theorem strLt_iff (x y : String) : strLt x y = true ↔ x < y := by
  rw [String.lt_iff_toList_lt]
  exact charListLt_iff x.data y.data

/-- `strCmp x y ≠ Greater` is exactly `x ≤ y`. -/
theorem strCmp_ne_gt (x y : String) : (strCmp x y ≠ Ordering.gt) ↔ x ≤ y := by
  unfold strCmp
  by_cases h1 : strLt x y = true
  · rw [if_pos h1]
    simp [le_of_lt ((strLt_iff x y).mp h1)]
  · by_cases h2 : x = y
    · rw [if_neg h1, if_pos h2]
      simp [le_of_eq h2]
    · rw [if_neg h1, if_neg h2]
      simp only [ne_eq, not_true_eq_false, false_iff, not_le]
      have hnlt : ¬ x < y := fun h => h1 ((strLt_iff x y).mpr h)
      exact lt_of_le_of_ne (not_lt.mp hnlt) (fun he => h2 he.symm)

/-- Unfolding of the comparator order: the default id precedes
everything, nothing else precedes it, and otherwise it is display-name
order. -/
theorem deviceLe_iff (x y : AudioDeviceInfo) :
    deviceLe x y ↔ (x.id = ("default") ∨
      (x.id ≠ ("default") ∧ y.id ≠ ("default") ∧
        x.display_name ≤ y.display_name)) := by
  unfold deviceLe deviceCmp
  by_cases hx : x.id = ("default")
  · rw [if_pos hx]
    simp [hx]
  · rw [if_neg hx]
    by_cases hy : y.id = ("default")
    · rw [if_pos hy]
      simp [hx, hy]
    · rw [if_neg hy]
      rw [strCmp_ne_gt]
      simp [hx, hy]

/-- The comparator order is total. -/
theorem deviceLe_total (x y : AudioDeviceInfo) : deviceLe x y ∨ deviceLe y x := by
  rw [deviceLe_iff, deviceLe_iff]
  by_cases hx : x.id = ("default")
  · exact Or.inl (Or.inl hx)
  · by_cases hy : y.id = ("default")
    · exact Or.inr (Or.inl hy)
    · rcases le_total x.display_name y.display_name with h | h
      · exact Or.inl (Or.inr ⟨hx, hy, h⟩)
      · exact Or.inr (Or.inr ⟨hy, hx, h⟩)

/-- The comparator order is transitive. -/
theorem deviceLe_trans (x y z : AudioDeviceInfo) (hxy : deviceLe x y)
    (hyz : deviceLe y z) : deviceLe x z := by
  rw [deviceLe_iff] at hxy hyz ⊢
  rcases hxy with hx | ⟨hx, hy, hname1⟩
  · exact Or.inl hx
  · rcases hyz with hy' | ⟨_, hz, hname2⟩
    · exact absurd hy' hy
    · exact Or.inr ⟨hx, hz, le_trans hname1 hname2⟩

/-- Invariant of the enumeration fold: starting from the synthetic
default entry with its name marked seen, the accumulated list keeps the
default first, every later entry passed the filter, every listed name
is in the seen set, and the display names are pairwise distinct. -/
theorem deviceFold_invariant (names : List String) :
    ∀ (l : List AudioDeviceInfo) (seen : List String),
      (∀ e ∈ l, e.display_name ∈ seen) →
      ((l.map AudioDeviceInfo.display_name).Nodup) →
      (∃ others, l = defaultDeviceEntry :: others ∧
        ∀ e ∈ others, deviceKept e.id = true) →
      (∀ e ∈ (names.foldl deviceStep (l, seen)).1,
          e.display_name ∈ (names.foldl deviceStep (l, seen)).2) ∧
      (((names.foldl deviceStep (l, seen)).1.map
          AudioDeviceInfo.display_name).Nodup) ∧
      (∃ others, (names.foldl deviceStep (l, seen)).1 =
          defaultDeviceEntry :: others ∧
        ∀ e ∈ others, deviceKept e.id = true) := by
  induction names with
  | nil => exact fun l seen h1 h2 h3 => ⟨h1, h2, h3⟩
  | cons a rest ih =>
    intro l seen h1 h2 h3
    rw [List.foldl_cons]
    by_cases hk : deviceKept a = true
    · by_cases hs : (seen.contains (cleanName a)) = true
      · have hs2 : cleanName a ∈ seen := List.elem_iff.mp hs
        have hstep : deviceStep (l, seen) a = (l, seen) := by
          simp [deviceStep, hk, hs2]
        rw [hstep]
        exact ih l seen h1 h2 h3
      · have hs2 : cleanName a ∉ seen := fun hm => hs (List.elem_iff.mpr hm)
        have hstep : deviceStep (l, seen) a =
            (l ++ [{ id := a, display_name := cleanName a }],
              cleanName a :: seen) := by
          simp [deviceStep, hk, hs2]
        rw [hstep]
        apply ih
        · intro e he
          rcases List.mem_append.mp he with hm | hm
          · exact List.mem_cons_of_mem _ (h1 e hm)
          · have he' : e = { id := a, display_name := cleanName a } := by
              simpa using hm
            subst he'
            exact List.mem_cons_self _ _
        · rw [List.map_append]
          refine List.Nodup.append h2 (by simp) ?_
          intro x hx hx2
          simp only [List.map_cons, List.map_nil, List.mem_singleton] at hx2
          subst hx2
          obtain ⟨e, he, hename⟩ := List.mem_map.mp hx
          have hseen : cleanName a ∈ seen := hename ▸ h1 e he
          exact hs (List.elem_iff.mpr hseen)
        · obtain ⟨others, rfl, hothers⟩ := h3
          refine ⟨others ++ [{ id := a, display_name := cleanName a }],
            by simp, ?_⟩
          intro e he
          rcases List.mem_append.mp he with hm | hm
          · exact hothers e hm
          · have he' : e = { id := a, display_name := cleanName a } := by
              simpa using hm
            subst he'
            exact hk
    · have hstep : deviceStep (l, seen) a = (l, seen) := by
        simp [deviceStep, hk]
      rw [hstep]
      exact ih l seen h1 h2 h3

/-- C6 (amended): for every host device-name list, the list returned by
`get_professional_device_list` has the synthetic `"default"` entry
first, the remaining entries ordered lexicographically by display name
under Rust's byte-order (case-sensitive) `String::cmp`, no two entries
sharing a display name, and no later entry carrying the default id. -/
theorem get_professional_device_list_ordered (names : List String) :
    ∃ rest, get_professional_device_list names = defaultDeviceEntry :: rest ∧
      List.Sorted (fun x y : AudioDeviceInfo =>
        x.display_name ≤ y.display_name) rest ∧
      (((get_professional_device_list names).map
        AudioDeviceInfo.display_name).Nodup) ∧
      ∀ e ∈ rest, e.id ≠ ("default") := by
  haveI htot : IsTotal AudioDeviceInfo deviceLe := ⟨deviceLe_total⟩
  haveI htrans : IsTrans AudioDeviceInfo deviceLe :=
    ⟨fun x y z => deviceLe_trans x y z⟩
  have hinv := deviceFold_invariant names [defaultDeviceEntry]
    [defaultDeviceEntry.display_name]
    (by
      intro e he
      have he' : e = defaultDeviceEntry := by simpa using he
      subst he'
      exact List.mem_cons_self _ _)
    (by simp)
    ⟨[], rfl, fun e he => absurd he (List.not_mem_nil e)⟩
  obtain ⟨hmem, hnodup, hex⟩ := hinv
  obtain ⟨others, hshape, hkept⟩ := hex
  set built := (names.foldl deviceStep
    ([defaultDeviceEntry], [defaultDeviceEntry.display_name])).1 with hbuilt
  have hdef : get_professional_device_list names =
      List.insertionSort deviceLe built := rfl
  have hsorted := List.sorted_insertionSort deviceLe built
  have hperm : List.Perm (List.insertionSort deviceLe built) built :=
    List.perm_insertionSort deviceLe built
  have hid : ∀ e ∈ built, e.id = ("default") → e = defaultDeviceEntry := by
    intro e he heq
    rw [hshape] at he
    rcases List.mem_cons.mp he with h | hmem2
    · exact h
    · exact absurd heq (deviceKept_ne_default e.id (hkept e hmem2))
  have hdm : defaultDeviceEntry ∈ List.insertionSort deviceLe built := by
    rw [hperm.mem_iff, hshape]
    exact List.mem_cons_self _ _
  cases hsl : List.insertionSort deviceLe built with
  | nil =>
    rw [hsl] at hdm
    exact absurd hdm (List.not_mem_nil _)
  | cons x rest =>
    rw [hsl] at hsorted hperm hdm
    have hx : x = defaultDeviceEntry := by
      by_cases hxid : x.id = ("default")
      · exact hid x (hperm.subset (List.mem_cons_self x rest)) hxid
      · have hne : defaultDeviceEntry ≠ x := by
          intro h
          exact hxid (by rw [← h]; rfl)
        have hdr : defaultDeviceEntry ∈ rest := by
          rcases List.mem_cons.mp hdm with h | h
          · exact absurd h hne
          · exact h
        have hle := (List.sorted_cons.mp hsorted).1 defaultDeviceEntry hdr
        rw [deviceLe_iff] at hle
        rcases hle with h | ⟨_, hnd, _⟩
        · exact absurd h hxid
        · exact absurd rfl hnd
    subst hx
    have hrest_perm : List.Perm rest others := by
      have hp2 := hperm
      rw [hshape] at hp2
      exact hp2.cons_inv
    have hrid : ∀ e ∈ rest, e.id ≠ ("default") := fun e he =>
      deviceKept_ne_default e.id (hkept e (hrest_perm.subset he))
    refine ⟨rest, by rw [hdef, hsl], ?_, ?_, hrid⟩
    · have hrest_sorted : List.Sorted deviceLe rest :=
        (List.sorted_cons.mp hsorted).2
      apply List.Pairwise.imp_of_mem ?_ hrest_sorted
      intro a b ha hb hab
      rw [deviceLe_iff] at hab
      rcases hab with h | ⟨_, _, hle⟩
      · exact absurd h (hrid a ha)
      · exact hle
    · rw [hdef, hsl]
      have hp3 : List.Perm
          ((defaultDeviceEntry :: rest).map AudioDeviceInfo.display_name)
          (built.map AudioDeviceInfo.display_name) := hperm.map _
      exact hp3.nodup_iff.mpr hnodup

/-- Counterexample to C6 as stated: for host devices
`sysdefault:CARD=Zeta` and `sysdefault:CARD=alpha`, the returned order
is `default, "Zeta (System Default)", "alpha (System Default)"` —
byte order puts `Z` (0x5A) before `a` (0x61) — while case-insensitive
lexicographic order demands `alpha` before `Zeta`: the lowercased name
of the later entry is strictly smaller. -/
theorem get_professional_device_list_counterexample :
    ((get_professional_device_list
        [("sysdefault:CARD=Zeta"), ("sysdefault:CARD=alpha")]).map
      AudioDeviceInfo.display_name =
      [("Sistem Varsayılanı (Pulse/Pipewire)"), ("Zeta (System Default)"),
        ("alpha (System Default)")]) ∧
    lowercase ("alpha (System Default)") < lowercase ("Zeta (System Default)") :=
  ⟨by decide, (strLt_iff _ _).mp (by decide)⟩
